import Mathlib

set_option maxHeartbeats 1000000

/-!
Verification development for the torrust-mactracker repository.

Part 1 models the torrent/peer repository component (the
torrust-tracker-torrent-repository crate whose README and database schema
ship with this repository while its implementation sources do not; those
definitions are therefore modelled from the specification text).

Part 2 embeds the JavaScript sources that are present: the web admin
install endpoint in webadmin/server.js, the dockerode container status
helper, and the user-profiles page setup from the Nuxt front end.
-/

namespace TorrustRepo

/-- Modelled from the spec: the announce event stored in a peer record.
The torrent repository crate implementation is absent from the sources
(only its README and the SQLite schema are present), so the data model
follows section 3 of the specification. -/
inductive AnnounceEvent
  | started
  | stopped
  | completed
  | noEvent
deriving DecidableEq

/-- Modelled from the spec: a fixed-length byte identifier of a torrent,
compared by byte value. Bytes are natural numbers below 256. -/
structure InfoHash where
  bytes : List Nat
deriving DecidableEq

/-- Modelled from the spec: peer identity is the composite of the peer id
supplied by the client and the network address (ip, port). -/
structure PeerIdentity where
  peer_id : List Nat
  ip : Nat
  port : Nat
deriving DecidableEq

/-- Modelled from the spec: snapshot of one peer for one torrent, replaced
wholesale on every announce. -/
structure PeerRecord where
  peer_id : List Nat
  ip_address : Nat
  port : Nat
  uploaded_bytes : Nat
  downloaded_bytes : Nat
  bytes_left : Nat
  event : AnnounceEvent
  last_announce_timestamp : Nat
deriving DecidableEq

/-- Modelled from the spec: the identity under which a record is keyed in a
swarm. -/
def peerKey (r : PeerRecord) : PeerIdentity :=
  ⟨r.peer_id, r.ip_address, r.port⟩

/-- Modelled from the spec: the per-torrent collection of peers, a mapping
from peer identity to peer record. -/
abbrev SwarmIndex := List PeerRecord

/-- Modelled from the spec: lookup of the record stored for an identity. -/
def swarmLookup (s : SwarmIndex) (k : PeerIdentity) : Option PeerRecord :=
  s.find? (fun p => peerKey p == k)

/-- Modelled from the spec: insert or replace the record keyed by the
identity of the new record (full replace, not incremental merge). -/
def swarmUpsert (s : SwarmIndex) (rec : PeerRecord) : SwarmIndex :=
  s.filter (fun p => peerKey p != peerKey rec) ++ [rec]

/-- Modelled from the spec: remove the record keyed by an identity. -/
def swarmRemove (s : SwarmIndex) (k : PeerIdentity) : SwarmIndex :=
  s.filter (fun p => peerKey p != k)

/-- Modelled from the spec: a torrent entry wraps the swarm plus per-torrent
metadata, in particular the monotone completed counter persisted in the
torrents table of the schema. -/
structure TorrentEntry where
  info_hash : InfoHash
  swarm : SwarmIndex
  completed_count : Nat
  created_at : Nat
deriving DecidableEq

/-- Modelled from the spec: the top-level map from info-hash to torrent
entry; the sole mutation surface. -/
structure TorrentRepository where
  entries : List TorrentEntry
deriving DecidableEq

/-- Modelled from the spec: find the entry of an info-hash. -/
def findEntry (r : TorrentRepository) (ih : InfoHash) : Option TorrentEntry :=
  r.entries.find? (fun e => e.info_hash == ih)

/-- Modelled from the spec: the swarm currently stored for an info-hash,
empty when the torrent is untracked. -/
def swarmOf (r : TorrentRepository) (ih : InfoHash) : SwarmIndex :=
  ((findEntry r ih).map (fun e => e.swarm)).getD []

/-- Modelled from the spec: the completed counter stored for an info-hash,
zero when the torrent is untracked. -/
def completedOf (r : TorrentRepository) (ih : InfoHash) : Nat :=
  ((findEntry r ih).map (fun e => e.completed_count)).getD 0

/-- Modelled from the spec: detection of the first transition into the
completed state in the current session, tracked by comparing the event of
the previously stored record with the new event, not a separate flag. -/
def transitionsToCompleted (prev : Option PeerRecord) (ev : AnnounceEvent) : Bool :=
  match prev with
  | some p => ev == .completed && p.event != .completed
  | none => ev == .completed

/-- Modelled from the spec: apply one announce to a torrent entry: insert or
replace the peer and increment the completed counter exactly on the
transition into the completed event. -/
def upsertEntry (e : TorrentEntry) (rec : PeerRecord) : TorrentEntry :=
  { e with
    swarm := swarmUpsert e.swarm rec
    completed_count :=
      e.completed_count +
        (if transitionsToCompleted (swarmLookup e.swarm (peerKey rec)) rec.event then 1 else 0) }

/-- Modelled from the spec: a fresh entry created on the first announce for
an info-hash, with empty swarm and zero completed counter. -/
def freshEntry (ih : InfoHash) (rec : PeerRecord) : TorrentEntry :=
  ⟨ih, [], 0, rec.last_announce_timestamp⟩

/-- Modelled from the spec: upsert_peer creates the torrent entry if absent,
inserts or replaces the peer, and updates the completed counter. -/
def upsert_peer (r : TorrentRepository) (ih : InfoHash) (rec : PeerRecord) :
    TorrentRepository :=
  if r.entries.any (fun e => e.info_hash == ih) then
    ⟨r.entries.map (fun e => if e.info_hash == ih then upsertEntry e rec else e)⟩
  else
    ⟨r.entries ++ [upsertEntry (freshEntry ih rec) rec]⟩

/-- Modelled from the spec: remove_peer removes a peer; a no-op when the
peer or the torrent is absent. -/
def remove_peer (r : TorrentRepository) (ih : InfoHash) (k : PeerIdentity) :
    TorrentRepository :=
  ⟨r.entries.map (fun e =>
    if e.info_hash == ih then { e with swarm := swarmRemove e.swarm k } else e)⟩

/-- Modelled from the spec: get_peers returns up to limit peers of the
swarm, excluding the requesting peer; the empty sequence when the torrent
is untracked. -/
def get_peers (r : TorrentRepository) (ih : InfoHash) (requester : PeerIdentity)
    (limit : Nat) : List PeerRecord :=
  match findEntry r ih with
  | none => []
  | some e => (e.swarm.filter (fun p => peerKey p != requester)).take limit

/-- Modelled from the spec: swarm metrics; a seeder is a peer with zero
bytes left, a leecher any other peer. -/
def get_swarm_metrics (r : TorrentRepository) (ih : InfoHash) : Nat × Nat :=
  let s := swarmOf r ih
  ((s.filter (fun p => p.bytes_left == 0)).length,
   (s.filter (fun p => p.bytes_left != 0)).length)

/-- Modelled from the spec: a peer is inactive when its last announce
timestamp is older than now minus the inactivity timeout. -/
def peerInactive (now timeout : Nat) (p : PeerRecord) : Bool :=
  decide (p.last_announce_timestamp < now - timeout)

/-- Modelled from the spec: remove_inactive_peers removes, from every
entry, the peers inactive with respect to now and the timeout. -/
def remove_inactive_peers (r : TorrentRepository) (now timeout : Nat) :
    TorrentRepository :=
  ⟨r.entries.map (fun e =>
    { e with swarm := e.swarm.filter (fun p => !peerInactive now timeout p) })⟩

/-- Modelled from the spec: the retention policy for peerless torrents, a
tagged variant with no per-torrent override. -/
inductive RetentionPolicy
  | persist
  | remove
  | removeAfter (d : Nat)
deriving DecidableEq

/-- Modelled from the spec: the implicit last-activity time of an entry,
the maximum of the creation time and the announce timestamps of the swarm,
used instead of a separate stored first-observed-empty field. -/
def entryLastActivity (e : TorrentEntry) : Nat :=
  (e.swarm.map (fun p => p.last_announce_timestamp)).foldr max e.created_at

/-- Modelled from the spec: whether the policy deletes the entry at time
now; only entries with an empty swarm are ever deleted, immediately under
remove, never under persist, and under removeAfter once no peers remain
and the last activity is at least the grace duration in the past. -/
def entryExpired (now : Nat) (policy : RetentionPolicy) (e : TorrentEntry) : Bool :=
  e.swarm.isEmpty &&
    (match policy with
     | .persist => false
     | .remove => true
     | .removeAfter d => decide (entryLastActivity e + d ≤ now))

/-- Modelled from the spec: apply_retention_policy applies the configured
policy to every entry whose swarm is empty. -/
def apply_retention_policy (r : TorrentRepository) (now : Nat)
    (policy : RetentionPolicy) : TorrentRepository :=
  ⟨r.entries.filter (fun e => !entryExpired now policy e)⟩

/-- Modelled from the spec: the sort key of the pagination view: by
info-hash lexical order, by peer count, or by completed counter. -/
inductive SortKey
  | byInfoHash
  | byPeerCount
  | byCompleted
deriving DecidableEq

/-- Modelled from the spec: lexical comparison of info-hash byte lists,
used as the deterministic tie break of the pagination view. -/
def bytesLe : List Nat → List Nat → Bool
  | [], _ => true
  | _ :: _, [] => false
  | a :: as, b :: bs =>
    if a < b then true else if b < a then false else bytesLe as bs

/-- Modelled from the spec: the primary numeric component of each sort
key; the info-hash key sorts purely lexically. -/
def primaryKey : SortKey → TorrentEntry → Nat
  | .byInfoHash, _ => 0
  | .byPeerCount, e => e.swarm.length
  | .byCompleted, e => e.completed_count

/-- Modelled from the spec: the total order on entries used by the
pagination view: the primary component of the sort key first, ties broken
by info-hash lexical order. -/
def entryLe (k : SortKey) (a b : TorrentEntry) : Bool :=
  if primaryKey k a < primaryKey k b then true
  else if primaryKey k b < primaryKey k a then false
  else bytesLe a.info_hash.bytes b.info_hash.bytes

/-- Modelled from the spec: the full entry set sorted deterministically
before slicing. -/
def sortedEntries (r : TorrentRepository) (k : SortKey) : List TorrentEntry :=
  r.entries.mergeSort (entryLe k)

/-- Modelled from the spec: list_entries_page returns the requested slice
of the sorted entry set together with the total entry count; it reads the
repository and mutates nothing. -/
def list_entries_page (r : TorrentRepository) (k : SortKey)
    (page page_size : Nat) : List TorrentEntry × Nat :=
  (((sortedEntries r k).drop (page * page_size)).take page_size,
   r.entries.length)

/-- Modelled from the spec: the number of pages needed to cover all
entries at a given page size. -/
def pageCount (r : TorrentRepository) (page_size : Nat) : Nat :=
  (r.entries.length + page_size - 1) / page_size

/-- Modelled from the spec: load_all turns persisted (info_hash,
completed_count) pairs into fresh torrent entries with empty swarms; peer
membership is never persisted. -/
def load_all (pairs : List (InfoHash × Nat)) : TorrentRepository :=
  ⟨pairs.map (fun p => ⟨p.1, [], p.2, 0⟩)⟩

/-- Modelled from the spec: save_all checkpoints the completed counter of
every entry back to the persistence store. -/
def save_all (r : TorrentRepository) : List (InfoHash × Nat) :=
  r.entries.map (fun e => (e.info_hash, e.completed_count))

/-- Modelled from the spec: the only repository error, raised for a
malformed identifier supplied by the caller. -/
inductive RepoError
  | invalidIdentifier
deriving DecidableEq

/-- Modelled from the spec: a well-formed info-hash is a fixed-length
byte identifier; twenty bytes, each below 256. -/
def validInfoHash (ih : InfoHash) : Bool :=
  ih.bytes.length == 20 && ih.bytes.all (fun b => b < 256)

/-- Modelled from the spec: a well-formed peer id is a fixed-length byte
identifier; twenty bytes, each below 256. -/
def validPeerId (pid : List Nat) : Bool :=
  pid.length == 20 && pid.all (fun b => b < 256)

/-- Modelled from the spec: the checked announce surface: a malformed
info-hash or peer id is rejected with the invalid-identifier signal before
any mutation, and the repository state is returned unchanged. -/
def checked_upsert_peer (r : TorrentRepository) (ih : InfoHash)
    (rec : PeerRecord) : Except RepoError Unit × TorrentRepository :=
  if validInfoHash ih && validPeerId rec.peer_id then
    (.ok (), upsert_peer r ih rec)
  else
    (.error .invalidIdentifier, r)

/-- Modelled from the spec: the checked removal surface, rejecting
malformed identifiers before any mutation. -/
def checked_remove_peer (r : TorrentRepository) (ih : InfoHash)
    (k : PeerIdentity) : Except RepoError Unit × TorrentRepository :=
  if validInfoHash ih && validPeerId k.peer_id then
    (.ok (), remove_peer r ih k)
  else
    (.error .invalidIdentifier, r)

end TorrustRepo

namespace WebAdmin

/-- JSON value as delivered by the express json body parser; numbers are
represented by an integer numerator and a positive denominator. -/
inductive Json
  | null
  | bool (b : Bool)
  | num (numerator : Int) (denominator : Nat)
  | str (s : String)
  | arr (items : List Json)
  | obj (fields : List (String × Json))

/-- Property lookup on a parsed body, as in the destructuring of
req.body in webadmin/server.js; objects built by the JSON parser keep the
last binding of a repeated key, and reading a property of a non-object
body yields undefined, modelled as none. -/
def jsonLookup (j : Json) (key : String) : Option Json :=
  match j with
  | .obj fields => (fields.reverse.find? (fun f => f.1 == key)).map (fun f => f.2)
  | _ => none

/-- JavaScript falsiness of a possibly absent value: undefined, null,
false, zero and the empty string are falsy. -/
def jsFalsy (v : Option Json) : Bool :=
  match v with
  | none => true
  | some .null => true
  | some (.bool b) => !b
  | some (.num n _) => n == 0
  | some (.str s) => s == ""
  | some (.arr _) => false
  | some (.obj _) => false

/-- The Array.isArray check of the install handler. -/
def isJsonArray (v : Option Json) : Bool :=
  match v with
  | some (.arr _) => true
  | _ => false

/-- Result of one shell command run through the exec helper of
webadmin/server.js. -/
inductive CmdResult
  | ok (stdout : String)
  | err (message : String)

/-- Outcomes of the two commands the install handler runs after writing
the installation script: the chmod call and the script itself. -/
structure ExecEnv where
  chmod : CmdResult
  install : CmdResult

/-- HTTP response summary of the install handler: the status code and the
success flag of the JSON payload. -/
structure InstallResponse where
  status : Nat
  success : Bool
deriving DecidableEq

/-- Embedding of the POST /api/torrust/install handler of
webadmin/server.js: destructure services from the body; if it is falsy or
not an array respond 400 with success false before touching the
filesystem; otherwise write the installation script, chmod it and run it,
responding 200 with the success flag of the run. The second component
lists the files written by the handler. -/
def installHandler (body : Json) (env : ExecEnv) :
    InstallResponse × List String :=
  let services := jsonLookup body "services"
  if jsFalsy services || !isJsonArray services then
    (⟨400, false⟩, [])
  else
    let written := ["/opt/torrust-admin/install-torrust.sh"]
    match env.chmod with
    | .err _ => (⟨200, false⟩, written)
    | .ok _ =>
      match env.install with
      | .ok _ => (⟨200, true⟩, written)
      | .err _ => (⟨200, false⟩, written)

end WebAdmin

namespace Dashboard

/-- Whether one character list occurs contiguously inside another, the
semantics of the JavaScript String.prototype.includes check. -/
def charsContain (needle : List Char) : List Char → Bool
  | [] => needle.isEmpty
  | c :: t => needle.isPrefixOf (c :: t) || charsContain needle t

/-- The includes check of the container filter in the dashboard server. -/
def strIncludes (hay needle : String) : Bool :=
  charsContain needle.toList hay.toList

/-- String.prototype.replace with a plain string pattern replaces only the
first occurrence, as used on the leading slash of a container name. -/
def jsReplaceFirst (pat rep : List Char) : List Char → List Char
  | [] => []
  | c :: cs =>
    if pat.isPrefixOf (c :: cs) then rep ++ (c :: cs).drop pat.length
    else c :: jsReplaceFirst pat rep cs

/-- A container as returned by the dockerode listContainers call. -/
structure DockerContainer where
  ident : String
  names : List String
  state : String
  image : String
  ports : List String
  created : Nat
deriving DecidableEq

/-- The view of a container built by getContainerStatus. -/
structure ContainerView where
  id : String
  name : String
  status : String
  image : String
  ports : List String
  created : Nat
deriving DecidableEq

/-- The mapping applied to each filtered container: first name with the
leading slash removed, plus the rest of the fields. -/
def containerView (c : DockerContainer) : ContainerView :=
  ⟨c.ident,
   String.mk (jsReplaceFirst ['/'] [] (c.names.headD "").toList),
   c.state, c.image, c.ports, c.created⟩

/-- Embedding of getContainerStatus of the dashboard server: list all
containers, keep those having some name that includes the substring
torrust, and map them to the view; any listing error is caught and the
empty list returned. -/
def getContainerStatus (listing : Except String (List DockerContainer)) :
    List ContainerView :=
  match listing with
  | .error _ => []
  | .ok containers =>
    (containers.filter
      (fun c => c.names.any (fun n => strIncludes n "torrust"))).map containerView

end Dashboard

namespace UserProfilesPage

/-- JavaScript number produced by a string conversion: not-a-number, the
two infinities, or a finite value denoted by an integer numerator over a
positive power-of-ten denominator. -/
inductive JsNum
  | nan
  | posInf
  | negInf
  | finite (numerator : Int) (denominator : Nat)
deriving DecidableEq

/-- The isNaN test on a converted number. -/
def JsNum.isNaN : JsNum → Bool
  | .nan => true
  | _ => false

/-- Characters stripped by the Number conversion and skipped by parseInt:
the common JavaScript whitespace set. -/
def jsWhitespace (c : Char) : Bool :=
  c == ' ' || c == '\t' || c == '\n' || c == '\r' ||
    c == '\u000B' || c == '\u000C' || c == ' '

/-- Value of a list of decimal digit characters. -/
def digitsToNat (ds : List Char) : Nat :=
  ds.foldl (fun a c => a * 10 + (c.toNat - 48)) 0

/-- Embedding of parseInt with radix 10: skip leading whitespace, read an
optional sign, take the longest prefix of decimal digits, and fail to
not-a-number, modelled as none, when that prefix is empty; the undefined
argument stringifies to a word without digits and also fails. -/
def jsParseInt10 (s : Option String) : Option Int :=
  match s with
  | none => none
  | some str =>
    let l := str.toList.dropWhile jsWhitespace
    let signed : Int × List Char :=
      match l with
      | '+' :: t => (1, t)
      | '-' :: t => (-1, t)
      | t => (1, t)
    let ds := signed.2.takeWhile Char.isDigit
    if ds.isEmpty then none else some (signed.1 * (digitsToNat ds : Int))

/-- Assemble a finite converted number from sign, mantissa digits, the
number of fraction digits and the exponent. -/
def mkFinite (sign : Int) (mant : Nat) (fracLen : Nat) (ex : Int) : JsNum :=
  let p : Int := ex - fracLen
  if 0 ≤ p then .finite (sign * mant * (10 : Int) ^ p.toNat) 1
  else .finite (sign * mant) ((10 : Nat) ^ (-p).toNat)

/-- Parse the optional exponent part of a decimal literal; any trailing
characters make the whole conversion not-a-number. -/
def parseExponentPart (sign : Int) (mant : Nat) (fracLen : Nat) :
    List Char → JsNum
  | [] => mkFinite sign mant fracLen 0
  | c :: rest =>
    if c == 'e' || c == 'E' then
      let signed : Int × List Char :=
        match rest with
        | '+' :: t => (1, t)
        | '-' :: t => (-1, t)
        | t => (1, t)
      let eds := signed.2.takeWhile Char.isDigit
      if eds.isEmpty || !(signed.2.drop eds.length).isEmpty then .nan
      else mkFinite sign mant fracLen (signed.1 * (digitsToNat eds : Int))
    else .nan

/-- Parse a decimal literal body: integer digits, an optional dot with
fraction digits, and an optional exponent; at least one digit must be
present around the dot. -/
def parseDecimalBody (sign : Int) (l : List Char) : JsNum :=
  let intDs := l.takeWhile Char.isDigit
  let r1 := l.drop intDs.length
  match r1 with
  | '.' :: r2 =>
    let fracDs := r2.takeWhile Char.isDigit
    let r3 := r2.drop fracDs.length
    if intDs.isEmpty && fracDs.isEmpty then .nan
    else parseExponentPart sign (digitsToNat (intDs ++ fracDs)) fracDs.length r3
  | _ =>
    if intDs.isEmpty then .nan
    else parseExponentPart sign (digitsToNat intDs) 0 r1

/-- Parse a signed decimal literal or the Infinity keyword. -/
def parseSignedPart (sign : Int) (l : List Char) : JsNum :=
  if l == "Infinity".toList then (if sign == 1 then .posInf else .negInf)
  else parseDecimalBody sign l

/-- Hexadecimal digit test. -/
def isHexDigitChar (c : Char) : Bool :=
  c.isDigit || ('a' ≤ c && c ≤ 'f') || ('A' ≤ c && c ≤ 'F')

/-- Hexadecimal digit value. -/
def hexDigitVal (c : Char) : Nat :=
  if c.isDigit then c.toNat - 48
  else if 'a' ≤ c && c ≤ 'f' then c.toNat - 87
  else c.toNat - 55

/-- Octal digit test. -/
def isOctalDigitChar (c : Char) : Bool :=
  '0' ≤ c && c ≤ '7'

/-- Binary digit test. -/
def isBinaryDigitChar (c : Char) : Bool :=
  c == '0' || c == '1'

/-- Parse an unsigned radix literal after its 0x, 0o or 0b marker; the
digits must be nonempty and fill the rest of the string. -/
def parseRadix (base : Nat) (isDig : Char → Bool) (val : Char → Nat)
    (l : List Char) : JsNum :=
  let ds := l.takeWhile isDig
  if ds.isEmpty || !(l.drop ds.length).isEmpty then .nan
  else .finite ((ds.foldl (fun a c => a * base + val c) 0 : Nat) : Int) 1

/-- Conversion of trimmed string content to a number: the empty string is
zero; radix-marked literals carry no sign; otherwise a signed decimal
literal or Infinity; anything else is not-a-number. -/
def jsStringToNumber (l : List Char) : JsNum :=
  match l with
  | [] => .finite 0 1
  | '0' :: x :: rest =>
    if x == 'x' || x == 'X' then parseRadix 16 isHexDigitChar hexDigitVal rest
    else if x == 'o' || x == 'O' then parseRadix 8 isOctalDigitChar (fun c => c.toNat - 48) rest
    else if x == 'b' || x == 'B' then parseRadix 2 isBinaryDigitChar (fun c => c.toNat - 48) rest
    else parseDecimalBody 1 l
  | '+' :: t => parseSignedPart 1 t
  | '-' :: t => parseSignedPart (-1) t
  | _ => parseSignedPart 1 l

/-- Embedding of the Number conversion applied to a query parameter: the
absent parameter is undefined and converts to not-a-number; a string is
trimmed of whitespace at both ends and its content parsed. -/
def jsToNumber (s : Option String) : JsNum :=
  match s with
  | none => .nan
  | some str =>
    jsStringToNumber
      (((str.toList.dropWhile jsWhitespace).reverse.dropWhile jsWhitespace).reverse)

/-- The default page size constant of the user-profiles page. -/
def defaultPageSize : Int := 50

/-- Embedding of the pageSize initialization of the user-profiles page:
queryPageSize is the default when Number of the raw parameter is
not-a-number and otherwise the parseInt of the raw parameter; pageSize
falls back to the default again when queryPageSize is not-a-number. -/
def pageSizeInit (rawPageSize : Option String) : Int :=
  let queryPageSize : Option Int :=
    if (jsToNumber rawPageSize).isNaN then some defaultPageSize
    else jsParseInt10 rawPageSize
  match queryPageSize with
  | none => defaultPageSize
  | some v => v

/-- Embedding of the currentPage initialization of the user-profiles page:
Number of the page parameter, replaced by one when falsy, that is when it
is not-a-number or zero. -/
def currentPageInit (page : Option String) : JsNum :=
  match jsToNumber page with
  | .nan => .finite 1 1
  | .finite n d => if n == 0 then .finite 1 1 else .finite n d
  | x => x

end UserProfilesPage

namespace TorrustRepo

theorem find?_entry_map (l : List TorrentEntry) (g : TorrentEntry → TorrentEntry)
    (hg : ∀ e, (g e).info_hash = e.info_hash) (ih : InfoHash) :
    (l.map g).find? (fun e => e.info_hash == ih)
      = (l.find? (fun e => e.info_hash == ih)).map g := by
  rw [List.find?_map]
  have hp : ((fun e : TorrentEntry => e.info_hash == ih) ∘ g)
      = (fun e : TorrentEntry => e.info_hash == ih) := by
    funext e
    simp [Function.comp, hg e]
  rw [hp]

theorem upsertEntry_info_hash (e : TorrentEntry) (rec : PeerRecord) :
    (upsertEntry e rec).info_hash = e.info_hash := rfl

theorem findEntry_upsert_self (r : TorrentRepository) (ih : InfoHash)
    (rec : PeerRecord) :
    findEntry (upsert_peer r ih rec) ih
      = some (upsertEntry ((findEntry r ih).getD (freshEntry ih rec)) rec) := by
  unfold upsert_peer
  by_cases h : r.entries.any (fun e => e.info_hash == ih)
  · rw [if_pos h]
    unfold findEntry
    rw [find?_entry_map]
    · cases hfe : r.entries.find? (fun e => e.info_hash == ih) with
      | none =>
        exfalso
        obtain ⟨e₀, he₀, hpe₀⟩ := List.any_eq_true.mp h
        exact (List.find?_eq_none.mp hfe) e₀ he₀ hpe₀
      | some e₁ =>
        have hpe₁ : (e₁.info_hash == ih) = true :=
          @List.find?_some _ (fun e => e.info_hash == ih) e₁ r.entries hfe
        have heq : e₁.info_hash = ih := by simpa using hpe₁
        simp [heq]
    · intro e
      split <;> rfl
  · rw [if_neg h]
    have hnone : r.entries.find? (fun e => e.info_hash == ih) = none := by
      rw [List.find?_eq_none]
      intro x hx hpx
      exact h (List.any_eq_true.mpr ⟨x, hx, hpx⟩)
    unfold findEntry at hnone ⊢
    rw [List.find?_append, hnone]
    simp [List.find?, upsertEntry, freshEntry]

theorem getD_fresh_swarm (r : TorrentRepository) (ih : InfoHash) (rec : PeerRecord) :
    ((findEntry r ih).getD (freshEntry ih rec)).swarm = swarmOf r ih := by
  cases h : findEntry r ih <;> simp [swarmOf, h, freshEntry]

theorem getD_fresh_completed (r : TorrentRepository) (ih : InfoHash) (rec : PeerRecord) :
    ((findEntry r ih).getD (freshEntry ih rec)).completed_count = completedOf r ih := by
  cases h : findEntry r ih <;> simp [completedOf, h, freshEntry]

theorem swarmOf_upsert_peer (r : TorrentRepository) (ih : InfoHash) (rec : PeerRecord) :
    swarmOf (upsert_peer r ih rec) ih = swarmUpsert (swarmOf r ih) rec := by
  rw [swarmOf, findEntry_upsert_self]
  simp [upsertEntry, getD_fresh_swarm]

theorem filter_swarmUpsert (s : SwarmIndex) (rec : PeerRecord) :
    (swarmUpsert s rec).filter (fun p => peerKey p == peerKey rec) = [rec] := by
  unfold swarmUpsert
  rw [List.filter_append, List.filter_filter]
  have h1 : (s.filter fun a => (peerKey a == peerKey rec) && (peerKey a != peerKey rec)) = [] := by
    simp [bne]
  rw [h1]
  simp

/-- C1: every finite sequence of upsert_peer calls to the same info-hash
and peer identity leaves the swarm with exactly one record keyed by that
identity, and that record is the argument of the last call: full replace,
no field-wise merge. -/
theorem upsert_peer_last_write_wins (r : TorrentRepository) (ih : InfoHash)
    (k : PeerIdentity) (recs : List PeerRecord) (h : recs ≠ [])
    (hk : ∀ rec ∈ recs, peerKey rec = k) :
    (swarmOf (recs.foldl (fun s rec => upsert_peer s ih rec) r) ih).filter
        (fun p => peerKey p == k) = [recs.getLast h] := by
  have hd := List.dropLast_append_getLast h
  have hmem : recs.getLast h ∈ recs := List.getLast_mem h
  have hkey : peerKey (recs.getLast h) = k := hk _ hmem
  conv_lhs => rw [← hd]
  rw [List.foldl_append]
  simp only [List.foldl_cons, List.foldl_nil]
  rw [swarmOf_upsert_peer, ← hkey]
  exact filter_swarmUpsert _ _

/-- C1 witness: two successive announces of the same identity leave a
single record equal to the second one. -/
theorem upsert_peer_last_write_wins_witness :
    (swarmOf
        (([⟨[1], 2, 3, 0, 0, 5, .started, 10⟩,
           ⟨[1], 2, 3, 7, 8, 0, .completed, 20⟩] :
            List PeerRecord).foldl
          (fun s rec => upsert_peer s ⟨[9]⟩ rec) ⟨[]⟩) ⟨[9]⟩).filter
        (fun p => peerKey p == ⟨[1], 2, 3⟩) =
      [⟨[1], 2, 3, 7, 8, 0, .completed, 20⟩] :=
  upsert_peer_last_write_wins ⟨[]⟩ ⟨[9]⟩ ⟨[1], 2, 3⟩ _ (by decide) (by decide)

theorem completedOf_upsert_peer (r : TorrentRepository) (ih : InfoHash)
    (rec : PeerRecord) :
    completedOf (upsert_peer r ih rec) ih
      = completedOf r ih +
          (if transitionsToCompleted (swarmLookup (swarmOf r ih) (peerKey rec))
              rec.event
           then 1 else 0) := by
  rw [completedOf, findEntry_upsert_self]
  show (upsertEntry ((findEntry r ih).getD (freshEntry ih rec)) rec).completed_count = _
  rw [upsertEntry]
  simp only [getD_fresh_completed, getD_fresh_swarm]

theorem completedOf_le_upsert (r : TorrentRepository) (ih : InfoHash)
    (rec : PeerRecord) (ih' : InfoHash) :
    completedOf r ih' ≤ completedOf (upsert_peer r ih rec) ih' := by
  unfold completedOf findEntry upsert_peer
  by_cases h : r.entries.any (fun e => e.info_hash == ih)
  · rw [if_pos h]
    simp only
    rw [find?_entry_map _ _ (fun e => by split <;> rfl)]
    cases hfe : r.entries.find? (fun e => e.info_hash == ih') with
    | none => simp
    | some e =>
      simp only [Option.map_some', Option.getD_some]
      split
      · rw [upsertEntry]
        exact Nat.le_add_right _ _
      · exact Nat.le_refl _
  · rw [if_neg h]
    simp only
    rw [List.find?_append]
    cases hfe : r.entries.find? (fun e => e.info_hash == ih') with
    | none => simp
    | some e => simp

theorem completedOf_remove_peer (r : TorrentRepository) (ih : InfoHash)
    (k : PeerIdentity) (ih' : InfoHash) :
    completedOf (remove_peer r ih k) ih' = completedOf r ih' := by
  unfold completedOf findEntry remove_peer
  simp only
  rw [find?_entry_map _ _ (fun e => by split <;> rfl)]
  cases hfe : r.entries.find? (fun e => e.info_hash == ih') with
  | none => simp
  | some e =>
    simp only [Option.map_some', Option.getD_some]
    split <;> rfl

theorem completedOf_remove_inactive (r : TorrentRepository) (now timeout : Nat)
    (ih' : InfoHash) :
    completedOf (remove_inactive_peers r now timeout) ih' = completedOf r ih' := by
  unfold completedOf findEntry remove_inactive_peers
  simp only
  rw [find?_entry_map _ _ (fun e => by rfl)]
  cases hfe : r.entries.find? (fun e => e.info_hash == ih') with
  | none => simp
  | some e => simp

/-- C2: the completed counter of an entry never decreases under any
repository operation; an upsert increments it by exactly one precisely
when the stored record of that peer, if any, does not carry the completed
event while the new record does, a repeated completed announce does not
re-increment, and the counter is durable through the persistence round
trip while peer membership is not persisted. -/
theorem completed_count_monotone_exact :
    (∀ r ih rec ih', completedOf r ih' ≤ completedOf (upsert_peer r ih rec) ih') ∧
    (∀ r ih rec, rec.event = .completed →
        (∀ p, swarmLookup (swarmOf r ih) (peerKey rec) = some p →
          p.event ≠ .completed) →
        completedOf (upsert_peer r ih rec) ih = completedOf r ih + 1) ∧
    (∀ r ih rec p, swarmLookup (swarmOf r ih) (peerKey rec) = some p →
        p.event = .completed →
        completedOf (upsert_peer r ih rec) ih = completedOf r ih) ∧
    (∀ r ih rec, rec.event ≠ .completed →
        completedOf (upsert_peer r ih rec) ih = completedOf r ih) ∧
    (∀ r ih k ih', completedOf (remove_peer r ih k) ih' = completedOf r ih') ∧
    (∀ r now timeout ih',
        completedOf (remove_inactive_peers r now timeout) ih' = completedOf r ih') ∧
    (∀ r now policy e, e ∈ (apply_retention_policy r now policy).entries →
        e ∈ r.entries) ∧
    (∀ pairs : List (InfoHash × Nat), save_all (load_all pairs) = pairs ∧
        ∀ e ∈ (load_all pairs).entries, e.swarm = []) := by
  refine ⟨completedOf_le_upsert, ?_, ?_, ?_, completedOf_remove_peer,
    completedOf_remove_inactive, ?_, ?_⟩
  · intro r ih rec hev hprev
    rw [completedOf_upsert_peer]
    have ht : transitionsToCompleted (swarmLookup (swarmOf r ih) (peerKey rec))
        rec.event = true := by
      cases hl : swarmLookup (swarmOf r ih) (peerKey rec) with
      | none => simp [transitionsToCompleted, hev]
      | some p =>
        have := hprev p hl
        simp [transitionsToCompleted, hev, this]
    rw [ht]
    simp
  · intro r ih rec p hl hev
    rw [completedOf_upsert_peer]
    have ht : transitionsToCompleted (swarmLookup (swarmOf r ih) (peerKey rec))
        rec.event = false := by
      rw [hl]
      simp [transitionsToCompleted, hev]
    rw [ht]
    simp
  · intro r ih rec hev
    rw [completedOf_upsert_peer]
    have ht : transitionsToCompleted (swarmLookup (swarmOf r ih) (peerKey rec))
        rec.event = false := by
      cases hl : swarmLookup (swarmOf r ih) (peerKey rec) with
      | none => simp [transitionsToCompleted, hev]
      | some p => simp [transitionsToCompleted, hev]
    rw [ht]
    simp
  · intro r now policy e he
    exact List.mem_of_mem_filter he
  · intro pairs
    constructor
    · rw [save_all, load_all, List.map_map]
      exact List.map_id pairs
    · intro e he
      rw [load_all] at he
      obtain ⟨p, _, hp⟩ := List.mem_map.mp he
      rw [← hp]

/-- C2 witness: a first completed announce increments the counter of a
fresh torrent from zero to one, and a later peer removal keeps it. -/
theorem completed_count_monotone_exact_witness :
    completedOf
        (upsert_peer ⟨[]⟩ ⟨[9]⟩ ⟨[1], 2, 3, 7, 8, 0, .completed, 20⟩) ⟨[9]⟩
      = completedOf (⟨[]⟩ : TorrentRepository) ⟨[9]⟩ + 1 ∧
    completedOf
        (remove_peer
          (upsert_peer ⟨[]⟩ ⟨[9]⟩ ⟨[1], 2, 3, 7, 8, 0, .completed, 20⟩)
          ⟨[9]⟩ ⟨[1], 2, 3⟩) ⟨[9]⟩
      = completedOf
          (upsert_peer ⟨[]⟩ ⟨[9]⟩ ⟨[1], 2, 3, 7, 8, 0, .completed, 20⟩) ⟨[9]⟩ :=
  ⟨completed_count_monotone_exact.2.1 ⟨[]⟩ ⟨[9]⟩ _ rfl
      (by intro p hp; simp [swarmLookup, swarmOf, findEntry, List.find?] at hp),
   completed_count_monotone_exact.2.2.2.2.1 _ ⟨[9]⟩ ⟨[1], 2, 3⟩ ⟨[9]⟩⟩

theorem swarmOf_remove_inactive (r : TorrentRepository) (now timeout : Nat)
    (ih : InfoHash) :
    swarmOf (remove_inactive_peers r now timeout) ih
      = (swarmOf r ih).filter (fun p => !peerInactive now timeout p) := by
  unfold swarmOf findEntry remove_inactive_peers
  simp only
  rw [find?_entry_map _ _ (fun e => by rfl)]
  cases hfe : r.entries.find? (fun e => e.info_hash == ih) with
  | none => simp
  | some e => simp

/-- C3: remove_inactive_peers removes, from every entry, exactly the peers
whose last announce timestamp is below now minus the timeout, and every
other record stays in the swarm unchanged. -/
theorem remove_inactive_peers_exact (r : TorrentRepository) (now timeout : Nat)
    (ih : InfoHash) (p : PeerRecord) :
    p ∈ swarmOf (remove_inactive_peers r now timeout) ih ↔
      p ∈ swarmOf r ih ∧ ¬(p.last_announce_timestamp < now - timeout) := by
  rw [swarmOf_remove_inactive, List.mem_filter]
  simp [peerInactive]

/-- C4: apply_retention_policy deletes, under remove, exactly the entries
with an empty swarm; under persist no entry at all; under removeAfter an
empty entry exactly once its implicit last activity is at least the grace
duration in the past; and an entry with a nonempty swarm is never
deleted. -/
theorem apply_retention_policy_exact (r : TorrentRepository) (now : Nat) :
    (apply_retention_policy r now .persist = r) ∧
    (∀ e, e ∈ (apply_retention_policy r now .remove).entries ↔
        e ∈ r.entries ∧ e.swarm ≠ []) ∧
    (∀ d e, e ∈ (apply_retention_policy r now (.removeAfter d)).entries ↔
        e ∈ r.entries ∧ ¬(e.swarm = [] ∧ entryLastActivity e + d ≤ now)) ∧
    (∀ policy e, e ∈ r.entries → e.swarm ≠ [] →
        e ∈ (apply_retention_policy r now policy).entries) := by
  refine ⟨?_, ?_, ?_, ?_⟩
  · show (⟨r.entries.filter _⟩ : TorrentRepository) = r
    have hp : (fun e : TorrentEntry => !entryExpired now .persist e)
        = fun _ => true := by
      funext e
      simp [entryExpired]
    rw [hp, List.filter_true]
  · intro e
    rw [apply_retention_policy]
    simp [List.mem_filter, entryExpired, List.isEmpty_iff]
  · intro d e
    rw [apply_retention_policy]
    simp [List.mem_filter, entryExpired, List.isEmpty_iff, not_and]
    tauto
  · intro policy e he hne
    rw [apply_retention_policy]
    refine List.mem_filter.mpr ⟨he, ?_⟩
    cases hs : e.swarm with
    | nil => exact absurd hs hne
    | cons a t => simp [entryExpired, hs]

/-- C4 witness: a one-entry repository with a nonempty swarm survives the
persist policy unchanged and the remove policy keeps the entry. -/
theorem apply_retention_policy_exact_witness :
    apply_retention_policy
        ⟨[⟨⟨[1]⟩, [⟨[1], 2, 3, 0, 0, 0, .started, 5⟩], 0, 0⟩]⟩ 9 .persist
      = ⟨[⟨⟨[1]⟩, [⟨[1], 2, 3, 0, 0, 0, .started, 5⟩], 0, 0⟩]⟩ ∧
    (⟨⟨[1]⟩, [⟨[1], 2, 3, 0, 0, 0, .started, 5⟩], 0, 0⟩ : TorrentEntry) ∈
      (apply_retention_policy
        ⟨[⟨⟨[1]⟩, [⟨[1], 2, 3, 0, 0, 0, .started, 5⟩], 0, 0⟩]⟩ 9 .remove).entries :=
  ⟨(apply_retention_policy_exact _ 9).1,
   (apply_retention_policy_exact _ 9).2.2.2 .remove _ (by decide) (by decide)⟩

theorem bytesLe_total (a : List Nat) : ∀ b, (bytesLe a b || bytesLe b a) = true := by
  induction a with
  | nil => intro b; cases b <;> simp [bytesLe]
  | cons x xs ih =>
    intro b
    cases b with
    | nil => simp [bytesLe]
    | cons y ys =>
      simp only [bytesLe]
      split_ifs <;> first | rfl | omega | exact ih ys

theorem bytesLe_trans (a : List Nat) :
    ∀ b c, bytesLe a b = true → bytesLe b c = true → bytesLe a c = true := by
  induction a with
  | nil => intro b c _ _; simp [bytesLe]
  | cons x xs ih =>
    intro b c hab hbc
    cases b with
    | nil => simp [bytesLe] at hab
    | cons y ys =>
      cases c with
      | nil => simp [bytesLe] at hbc
      | cons z zs =>
        simp only [bytesLe] at hab hbc ⊢
        split_ifs at hab hbc ⊢ <;>
          first
          | rfl
          | omega
          | exact (Bool.false_ne_true hab).elim
          | exact (Bool.false_ne_true hbc).elim
          | exact ih ys zs hab hbc

theorem entryLe_total (k : SortKey) : ∀ a b : TorrentEntry,
    (entryLe k a b || entryLe k b a) = true := by
  intro a b
  unfold entryLe
  split_ifs <;> first | rfl | omega | exact bytesLe_total _ _

theorem entryLe_trans (k : SortKey) : ∀ a b c : TorrentEntry,
    entryLe k a b = true → entryLe k b c = true → entryLe k a c = true := by
  intro a b c hab hbc
  unfold entryLe at hab hbc ⊢
  split_ifs at hab hbc ⊢ <;>
    first
    | rfl
    | omega
    | exact (Bool.false_ne_true hab).elim
    | exact (Bool.false_ne_true hbc).elim
    | exact bytesLe_trans _ _ _ hab hbc

theorem flatMap_pages (k n : Nat) :
    ∀ l : List TorrentEntry, l.length ≤ n * k →
      (List.range n).flatMap (fun p => (l.drop (p * k)).take k) = l := by
  induction n with
  | zero =>
    intro l hl
    have h0 : l = [] := by
      cases l with
      | nil => rfl
      | cons a t => simp at hl
    simp [h0]
  | succ n ih =>
    intro l hl
    rw [List.range_succ_eq_map, List.flatMap_cons, List.flatMap_map]
    have hfun : (fun p => (l.drop (Nat.succ p * k)).take k)
        = (fun p => ((l.drop k).drop (p * k)).take k) := by
      funext p
      rw [Nat.succ_mul, Nat.add_comm, ← List.drop_drop]
    rw [hfun]
    have hlen : (l.drop k).length ≤ n * k := by
      have h1 : l.length ≤ n * k + k := by
        calc l.length ≤ Nat.succ n * k := hl
        _ = n * k + k := Nat.succ_mul n k
      rw [List.length_drop]
      exact Nat.sub_le_iff_le_add.mpr h1
    rw [ih (l.drop k) hlen]
    simp [List.take_append_drop]

theorem length_le_pageCount_mul (r : TorrentRepository) (ps : Nat) (h : 1 ≤ ps) :
    r.entries.length ≤ pageCount r ps * ps := by
  unfold pageCount
  cases hl : r.entries.length with
  | zero => simp
  | succ m =>
    have hd : (m + 1 + ps - 1) / ps = m / ps + 1 := by
      have hm : m + 1 + ps - 1 = m + ps := by omega
      rw [hm, Nat.add_div_right m h]
    rw [hd]
    exact (Nat.div_lt_iff_lt_mul h).mp (Nat.lt_succ_self (m / ps))

/-- C5: for a fixed repository snapshot the pagination view is a pure
function of its arguments, the concatenation of all pages contains every
entry with the same multiplicity as the repository (so each entry exactly
once, no duplicates, no gaps, when entries are distinct), the sorted
sequence is ordered under the sort key with ties broken by info-hash
order, and the call returns repository entries without mutating them. -/
theorem list_entries_page_partition (r : TorrentRepository) (k : SortKey)
    (ps : Nat) (h1 : 1 ≤ ps) (_h2 : ps ≤ r.entries.length) :
    (∀ e : TorrentEntry,
        ((List.range (pageCount r ps)).flatMap
            (fun p => (list_entries_page r k p ps).1)).count e
          = r.entries.count e) ∧
    ((sortedEntries r k).Pairwise (fun a b => entryLe k a b = true)) ∧
    (∀ p, (list_entries_page r k p ps).2 = r.entries.length) := by
  have hperm : (sortedEntries r k).Perm r.entries := List.mergeSort_perm _ _
  have hjoin : (List.range (pageCount r ps)).flatMap
      (fun p => (list_entries_page r k p ps).1) = sortedEntries r k := by
    simp only [list_entries_page]
    apply flatMap_pages
    rw [hperm.length_eq]
    exact length_le_pageCount_mul r ps h1
  refine ⟨?_, ?_, fun p => rfl⟩
  · intro e
    rw [hjoin]
    exact hperm.count_eq e
  · exact List.sorted_mergeSort (entryLe_trans k) (entryLe_total k) r.entries

/-- C5 witness: a one-entry repository paged with page size one yields the
entry exactly once. -/
theorem list_entries_page_partition_witness :
    ((List.range (pageCount ⟨[⟨⟨[1]⟩, [], 4, 0⟩]⟩ 1)).flatMap
        (fun p => (list_entries_page ⟨[⟨⟨[1]⟩, [], 4, 0⟩]⟩ .byCompleted p 1).1)).count
        ⟨⟨[1]⟩, [], 4, 0⟩
      = (⟨[⟨⟨[1]⟩, [], 4, 0⟩]⟩ : TorrentRepository).entries.count ⟨⟨[1]⟩, [], 4, 0⟩ :=
  (list_entries_page_partition ⟨[⟨⟨[1]⟩, [], 4, 0⟩]⟩ .byCompleted 1
    (by decide) (by decide)).1 ⟨⟨[1]⟩, [], 4, 0⟩

/-- C6: repository operations are total: an untracked torrent yields the
empty peer list, removing an absent peer or torrent is a no-op on the
state, and the only error is a malformed info-hash or peer id, rejected
with the invalid-identifier signal while the state is returned
unchanged. -/
theorem operations_total_invalid_rejected :
    (∀ r ih req lim, findEntry r ih = none → get_peers r ih req lim = []) ∧
    (∀ r ih k, (∀ e ∈ r.entries, e.info_hash = ih → ∀ p ∈ e.swarm, peerKey p ≠ k) →
        remove_peer r ih k = r) ∧
    (∀ r ih rec, (validInfoHash ih && validPeerId rec.peer_id) = false →
        checked_upsert_peer r ih rec = (.error .invalidIdentifier, r)) ∧
    (∀ r ih k, (validInfoHash ih && validPeerId k.peer_id) = false →
        checked_remove_peer r ih k = (.error .invalidIdentifier, r)) := by
  refine ⟨?_, ?_, ?_, ?_⟩
  · intro r ih req lim h
    rw [get_peers, h]
  · intro r ih k h
    show (⟨r.entries.map _⟩ : TorrentRepository) = r
    have hpt : ∀ e ∈ r.entries,
        (if e.info_hash == ih
         then { e with swarm := swarmRemove e.swarm k } else e) = e := by
      intro e he
      by_cases hih : e.info_hash = ih
      · cases e with
        | mk f s c t =>
          have hfil : swarmRemove s k = s := by
            rw [swarmRemove, List.filter_eq_self]
            intro p hp
            have hk := h ⟨f, s, c, t⟩ he hih p hp
            simp [bne, hk]
          simp [show f = ih from hih, hfil]
      · simp [hih]
    have hmap : r.entries.map
        (fun e => if e.info_hash == ih
          then { e with swarm := swarmRemove e.swarm k } else e) = r.entries := by
      calc r.entries.map _ = r.entries.map id := List.map_congr_left hpt
      _ = r.entries := List.map_id _
    rw [hmap]
  · intro r ih rec h
    simp [checked_upsert_peer, h]
  · intro r ih k h
    simp [checked_remove_peer, h]

/-- C6 witness: the empty repository returns the empty peer list and is
unchanged by removals, and an empty info-hash is rejected as invalid. -/
theorem operations_total_invalid_rejected_witness :
    get_peers ⟨[]⟩ ⟨[2]⟩ ⟨[1], 2, 3⟩ 5 = [] ∧
    remove_peer ⟨[]⟩ ⟨[2]⟩ ⟨[1], 2, 3⟩ = ⟨[]⟩ ∧
    checked_upsert_peer ⟨[]⟩ ⟨[]⟩ ⟨[1], 2, 3, 0, 0, 0, .started, 1⟩
      = (.error .invalidIdentifier, ⟨[]⟩) ∧
    checked_remove_peer ⟨[]⟩ ⟨[]⟩ ⟨[1], 2, 3⟩
      = (.error .invalidIdentifier, ⟨[]⟩) :=
  ⟨operations_total_invalid_rejected.1 ⟨[]⟩ ⟨[2]⟩ ⟨[1], 2, 3⟩ 5 rfl,
   operations_total_invalid_rejected.2.1 ⟨[]⟩ ⟨[2]⟩ ⟨[1], 2, 3⟩
     (by intro e he; exact absurd he (List.not_mem_nil e)),
   operations_total_invalid_rejected.2.2.1 ⟨[]⟩ ⟨[]⟩ _ (by decide),
   operations_total_invalid_rejected.2.2.2 ⟨[]⟩ ⟨[]⟩ ⟨[1], 2, 3⟩ (by decide)⟩

/-- C7: checkpointing a repository that was just loaded from persisted
(info_hash, completed_count) pairs returns exactly those pairs: counter
serialization through fresh empty-swarm entries is lossless. -/
theorem save_all_load_all_roundtrip (pairs : List (InfoHash × Nat)) :
    save_all (load_all pairs) = pairs := by
  rw [save_all, load_all, List.map_map]
  exact List.map_id pairs

end TorrustRepo

namespace WebAdmin

/-- C8: a POST to the install endpoint whose body has no services field or
whose services field is not an array is answered with status 400 and
success false, and no file is written: the check precedes the script
write, so the state is unchanged on this error path. -/
theorem install_rejects_missing_or_non_array (body : Json) (env : ExecEnv)
    (h : jsonLookup body "services" = none ∨
        ∀ xs, jsonLookup body "services" ≠ some (.arr xs)) :
    installHandler body env = (⟨400, false⟩, []) := by
  have hcond : (jsFalsy (jsonLookup body "services")
      || !isJsonArray (jsonLookup body "services")) = true := by
    rcases h with h | h
    · simp [h, jsFalsy]
    · cases hv : jsonLookup body "services" with
      | none => simp [jsFalsy]
      | some v =>
        cases v with
        | arr xs => exact absurd hv (h xs)
        | null => simp [isJsonArray]
        | bool b => simp [isJsonArray]
        | num a b => simp [isJsonArray]
        | str s => simp [isJsonArray]
        | obj fs => simp [isJsonArray]
  simp [installHandler, hcond]

/-- C8 witness: a body without a services field is rejected with 400 and
no file write. -/
theorem install_rejects_missing_or_non_array_witness :
    installHandler (.obj []) ⟨.ok "", .ok ""⟩ = (⟨400, false⟩, []) :=
  install_rejects_missing_or_non_array (.obj []) ⟨.ok "", .ok ""⟩ (Or.inl rfl)

end WebAdmin

namespace Dashboard

/-- C9: getContainerStatus is total: a listing error yields the empty
list instead of propagating, and every returned element is the view of a
listed container having at least one name that includes the substring
torrust. -/
theorem getContainerStatus_total_filtered :
    (∀ msg, getContainerStatus (.error msg) = []) ∧
    (∀ cs v, v ∈ getContainerStatus (.ok cs) →
        ∃ c ∈ cs, v = containerView c ∧
          ∃ n ∈ c.names, strIncludes n "torrust" = true) := by
  refine ⟨fun msg => rfl, ?_⟩
  intro cs v hv
  rw [getContainerStatus] at hv
  obtain ⟨c, hc, hview⟩ := List.mem_map.mp hv
  obtain ⟨hcs, hfil⟩ := List.mem_filter.mp hc
  obtain ⟨n, hn, hinc⟩ := List.any_eq_true.mp hfil
  exact ⟨c, hcs, hview.symm, n, hn, hinc⟩

/-- C9 witness: an error produces the empty list, and the element produced
for a matching container comes from that container and its torrust
name. -/
theorem getContainerStatus_total_filtered_witness :
    getContainerStatus (.error "boom") = [] ∧
    ∃ c ∈ [(⟨"abc", ["/torrust-tracker"], "running", "img", [], 0⟩ :
        DockerContainer)],
      containerView ⟨"abc", ["/torrust-tracker"], "running", "img", [], 0⟩
          = containerView c ∧
        ∃ n ∈ c.names, strIncludes n "torrust" = true :=
  ⟨getContainerStatus_total_filtered.1 "boom",
   getContainerStatus_total_filtered.2 _ _ (by decide)⟩

end Dashboard

namespace UserProfilesPage

/-- C10 counterexample: for the pageSize parameter 12abc the base-10
integer parse succeeds with value 12, yet the initialized pageSize is the
default 50, because the Number conversion of the whole string is
not-a-number; so pageSize does not equal the successful base-10 parse as
the claim states. -/
theorem pageSizeInit_counterexample :
    jsParseInt10 (some "12abc") = some 12 ∧
      pageSizeInit (some "12abc") = 50 ∧ (50 : Int) ≠ 12 :=
  ⟨by decide, by decide, by decide⟩

/-- C10 amended: the initialized pageSize is always a well-defined
integer: it equals the base-10 integer parse of the parameter when both
the Number conversion of the whole parameter and the parse succeed, and
the default 50 otherwise, including absent, empty and non-numeric values;
and currentPage is one whenever the page parameter does not convert to a
number. -/
theorem pageSize_currentPage_amended (raw page : Option String) :
    (∀ v : Int, (jsToNumber raw).isNaN = false → jsParseInt10 raw = some v →
        pageSizeInit raw = v) ∧
    ((jsToNumber raw).isNaN = true ∨ jsParseInt10 raw = none →
        pageSizeInit raw = 50) ∧
    ((jsToNumber page).isNaN = true → currentPageInit page = .finite 1 1) := by
  refine ⟨?_, ?_, ?_⟩
  · intro v hnan hparse
    simp [pageSizeInit, hnan, hparse]
  · intro h
    rcases h with h | h
    · simp [pageSizeInit, h, defaultPageSize]
    · cases hnan : (jsToNumber raw).isNaN with
      | true => simp [pageSizeInit, hnan, defaultPageSize]
      | false => simp [pageSizeInit, hnan, h, defaultPageSize]
  · intro h
    have hn : jsToNumber page = .nan := by
      cases hj : jsToNumber page with
      | nan => rfl
      | posInf => rw [hj] at h; exact absurd h (by simp [JsNum.isNaN])
      | negInf => rw [hj] at h; exact absurd h (by simp [JsNum.isNaN])
      | finite a b => rw [hj] at h; exact absurd h (by simp [JsNum.isNaN])
    rw [currentPageInit, hn]

/-- C10 witness for the amended statement: a plain numeric parameter is
parsed, an absent parameter falls back to 50, and a non-numeric page
parameter yields page one. -/
theorem pageSize_currentPage_amended_witness :
    pageSizeInit (some "7") = 7 ∧ pageSizeInit none = 50 ∧
      currentPageInit (some "abc") = .finite 1 1 :=
  ⟨(pageSize_currentPage_amended (some "7") none).1 7 (by decide) (by decide),
   (pageSize_currentPage_amended none none).2.1 (Or.inl rfl),
   (pageSize_currentPage_amended none (some "abc")).2.2 (by decide)⟩

end UserProfilesPage
